import Mathlib

/-!
Verification development for the iptv-filter repository (two Python
scripts: filter_us_iptv.py and generate_channels_xml.py).

The Python code is shallowly embedded here.  Strings are Lean `String`s
and every Python string operation used by the scripts is modelled
explicitly on the underlying character list (`String.data`), so that all
definitions are executable and kernel-evaluable:

 * str.strip / str.lower are modelled by pyStrip / pyLower (ASCII case
   folding, the whitespace set {space, tab, newline, carriage return,
   vertical tab, form feed} — the printable-ASCII fragment of Python's
   Unicode behaviour, which is all these playlists use);
 * str.splitlines is modelled as splitting on the line-feed character
   (the writer joins lines with a single line feed, and the theorems that
   need fidelity here carry hypotheses excluding other line-break
   characters from the data);
 * the concrete regular expressions used by the scripts are embedded by
   their derived matching semantics, each documented at its definition;
 * Python dicts of strings are association lists with first-match lookup
   and in-place update (insertion order preserved, as in Python 3.7+);
 * Python's re module, where applied to an arbitrary user-supplied
   pattern (the attr~/regex/ rules), is an oracle parameter
   rex : String -> String -> Except Unit Bool, an .error result standing
   for the re.error exception the code catches.
-/

/-! ## Character and string primitives -/

/-- Whitespace characters handled by the model of Python str.strip. -/
def isPyWs (c : Char) : Bool :=
  c == ' ' || c == '\t' || c == '\n' || c == '\r' || c == '\x0b' || c == '\x0c'

/-- Line-break characters of Python str.splitlines (the ASCII ones plus the
    three Unicode ones); used only in well-formedness hypotheses. -/
def isPyLineBreak (c : Char) : Bool :=
  c == '\n' || c == '\r' || c == '\x0b' || c == '\x0c' || c == '\x1c' ||
  c == '\x1d' || c == '\x1e' || c == '\x85' || c == '\u2028' || c == '\u2029'

/-- Strip leading and trailing whitespace from a character list. -/
def stripList (l : List Char) : List Char :=
  ((l.dropWhile isPyWs).reverse.dropWhile isPyWs).reverse

/-- Model of Python str.strip(). -/
def pyStrip (s : String) : String := String.mk (stripList s.data)

/-- Model of Python str.lower() (ASCII case folding). -/
def pyLower (s : String) : String := String.mk (s.data.map Char.toLower)

/-- Model of the helper norm() of filter_us_iptv.py: (s or "").strip().lower(). -/
def pyNorm (s : String) : String := pyLower (pyStrip s)

/-- Model of Python str.startswith. -/
def pyStartsWith (s pre : String) : Bool := pre.data.isPrefixOf s.data

/-- Model of Python str.endswith. -/
def pyEndsWith (s suf : String) : Bool := suf.data.isSuffixOf s.data

/-- Containment of a character list in another (Python's "needle in hay"):
    true when pat occurs contiguously inside hay. -/
def listContains (hay pat : List Char) : Bool :=
  match hay with
  | [] => pat.isEmpty
  | c :: cs => pat.isPrefixOf (c :: cs) || listContains cs pat

/-- Model of the Python expression "pat in hay" on strings. -/
def pyContains (hay pat : String) : Bool := listContains hay.data pat.data

/-- Split a character list at every character satisfying p, keeping empty
    pieces; the semantics of re.split with a single-character class. -/
def splitP (p : Char → Bool) : List Char → List (List Char)
  | [] => [[]]
  | c :: cs =>
    match splitP p cs with
    | [] => [[]]
    | r :: rs => if p c then [] :: r :: rs else (c :: r) :: rs

/-- Model of Python "sep".join(lines) for sep = a single line feed. -/
def joinLines : List (List Char) → List Char
  | [] => []
  | [l] => l
  | l :: ls => l ++ '\n' :: joinLines ls

/-- Model of Python str.splitlines() restricted to line-feed breaks: split on
    every line feed and drop the trailing empty piece (so a trailing line
    feed does not yield an extra line, and "" has no lines at all). -/
def pySplitLines (s : String) : List String :=
  let ps := splitP (· == '\n') s.data
  (if ps.getLast? = some [] then ps.dropLast else ps).map String.mk

/-! ## Data model of the playlist filter -/

/-- PlaylistEntry of filter_us_iptv.py: the dict
    {"attrs": {...}, "display": str, "url": str} built by tokenize_m3u.
    The attribute dict is an association list in insertion order. -/
structure Item where
  attrs : List (String × String)
  display : String
  url : String
deriving DecidableEq, Repr

/-- Model of attrs.get(k, "") (also of attrs.get(k) in a boolean context,
    where Python's None and "" are equally falsy). -/
def getA (m : List (String × String)) (k : String) : String :=
  ((m.find? (fun p => p.1 == k)).map (fun p => p.2)).getD ""

/-- Model of the Python dict assignment m[k] = v: replace the value in
    place if the key exists, else append the pair. -/
def setA : List (String × String) → String → String → List (String × String)
  | [], k, v => [(k, v)]
  | (k', v') :: rest, k, v =>
    if k' == k then (k', v) :: rest else (k', v') :: setA rest k v

/-! ## Playlist tokenizer (tokenize_m3u) -/

/-- Characters matched by the attribute-name class [A-Za-z0-9-] of the
    regexes in filter_us_iptv.py. -/
def isKeyChar (c : Char) : Bool := c.isAlpha || c.isDigit || c == '-'

/-- Dropping from a cons whose head satisfies p leaves at most the tail. -/
lemma length_dropWhile_cons_le (p : Char → Bool) (c : Char) (cs : List Char)
    (h : p c = true) : ((c :: cs).dropWhile p).length ≤ cs.length := by
  rw [List.dropWhile_cons, if_pos h]
  exact (List.dropWhile_sublist _).length_le

/-- Semantics of re.findall(r'([A-Za-z0-9-]+)="([^"]*)"', text): scan left to
    right; at a position starting with a run of key characters, a match
    requires the (maximal) run to be followed by an equals sign, an opening
    quote, any quote-free characters and a closing quote; on success the
    scan resumes after the closing quote, on failure after the run (every
    start inside a key run succeeds or fails with it, so this models
    re.findall's one-character advance exactly). -/
def findAttrPairs : List Char → List (String × String)
  | [] => []
  | c :: cs =>
    if hc : isKeyChar c then
      let key := (c :: cs).takeWhile isKeyChar
      match h : (c :: cs).dropWhile isKeyChar with
      | '=' :: '"' :: rest2 =>
        let v := rest2.takeWhile (· != '"')
        let rest3 := rest2.dropWhile (· != '"')
        if rest3.isEmpty then findAttrPairs ((c :: cs).dropWhile isKeyChar)
        else (String.mk key, String.mk v) :: findAttrPairs rest3.tail
      | _ => findAttrPairs ((c :: cs).dropWhile isKeyChar)
    else findAttrPairs cs
termination_by l => l.length
decreasing_by
  all_goals simp_wf
  all_goals
    first
    | omega
    | (have h1 := length_dropWhile_cons_le isKeyChar c cs hc
       try (have h2 : ((c :: cs).dropWhile isKeyChar).length = rest2.length + 2 := by
              rw [h]
              simp)
       try (have h3 : (rest2.dropWhile (fun x => x != '"')).length ≤ rest2.length :=
              (List.dropWhile_sublist _).length_le)
       omega)

/-- Semantics of re.match(r'^#EXTINF:[^ ]*\s*(?P<attrs>.*?),(?P<name>.*)$', ln),
    returning (group "attrs", group "name") on a match.  Derivation of the
    cases: after the literal prefix, the engine first lets [^ ]* take the
    maximal space-free run R and \s* the maximal whitespace run W after it;
    the lazy group then ends at the first comma of the remainder (case one).
    If the remainder holds no comma, shrinking W only re-scans whitespace, so
    the engine backtracks into R; the first shortening that reaches a comma
    stops right before the last comma of R, making the attrs group empty and
    the name group everything after that comma (case two).  With no comma
    after the prefix at all the match fails. -/
def parseExtinf (ln : String) : Option (String × String) :=
  let d := ln.data
  if "#EXTINF:".data.isPrefixOf d then
    let s := d.drop 8
    let R := s.takeWhile (· != ' ')
    let afterR := s.dropWhile (· != ' ')
    let rem := afterR.dropWhile isPyWs
    if rem.contains ',' then
      some (String.mk (rem.takeWhile (· != ',')),
            String.mk ((rem.dropWhile (· != ',')).tail))
    else if R.contains ',' then
      some ("", String.mk ((R.reverse.takeWhile (· != ',')).reverse ++ afterR))
    else none
  else none

/-- Build the attrs dict of an entry: attrs[key.lower()] = val over the
    findAttrPairs matches, in order. -/
def buildAttrs (ps : List (String × String)) : List (String × String) :=
  ps.foldl (fun m kv => setA m (pyLower kv.1) kv.2) []

/-- One parsed entry, from its EXTINF line and its already-extracted URL:
    attrs and display from the header regex (empty on a failed match; the
    display name is stripped — twice in the source, which is idempotent). -/
def extinfItem (ln url : String) : Item :=
  match parseExtinf ln with
  | some (attrsText, name) =>
    { attrs := buildAttrs (findAttrPairs attrsText.data)
      display := pyStrip (pyStrip name)
      url := url }
  | none => { attrs := [], display := "", url := url }

/-- Main loop of tokenize_m3u over the blank-filtered lines: on a line
    starting with "#EXTINF", skip following comment lines, take the first
    non-comment line as the URL (empty if none), emit the entry and resume
    after the URL line; any other line is skipped. -/
def tokenizeLoop : List String → List Item
  | [] => []
  | ln :: rest =>
    if pyStartsWith ln "#EXTINF" then
      let rest1 := rest.dropWhile (fun l => pyStartsWith l "#")
      let url := match rest1 with
        | u :: _ => pyStrip u
        | [] => ""
      extinfItem ln url :: tokenizeLoop rest1.tail
    else tokenizeLoop rest
termination_by l => l.length
decreasing_by
  all_goals simp_wf
  all_goals
    (have h1 : (List.dropWhile (fun l => pyStartsWith l "#") rest).length ≤ rest.length :=
       (List.dropWhile_sublist _).length_le
     have h2 : (List.dropWhile (fun l => pyStartsWith l "#") rest).tail.length ≤
         (List.dropWhile (fun l => pyStartsWith l "#") rest).length := by
       simp [List.length_tail]
     omega)

/-- Lines of the playlist text, blank (whitespace-only) lines removed, as in
    tokenize_m3u (the rstrip of a line feed after splitlines is a no-op). -/
def filteredLines (text : String) : List String :=
  (pySplitLines text).filter (fun l => pyStrip l != "")

/-- Model of tokenize_m3u. -/
def tokenize_m3u (text : String) : List Item := tokenizeLoop (filteredLines text)

/-! ## Rule engine -/

/-- Parsed rule, the tagged tuple returned by parse_rule. -/
inductive RuleP where
  | attr_exact (attr value : String)
  | attr_regex (attr pat : String)
  | any_substr (attr text : String)
deriving DecidableEq, Repr

/-- Semantics of parse_rule.  The regex r'^([A-Za-z0-9-]+)=(.+)$' matches
    exactly when a non-empty maximal key-character run is followed by an
    equals sign and at least one further character (shortening the greedy
    run never helps, as the next character is then a key character); the
    regex r'^([A-Za-z0-9-]+)~/(.+)/$' likewise requires "~/" after the run,
    a final slash, and a non-empty pattern ending at the LAST slash (the
    greedy group). -/
def parse_rule (r : String) : RuleP :=
  let d := r.data
  let K := d.takeWhile isKeyChar
  let rest := d.dropWhile isKeyChar
  if K ≠ [] then
    match rest with
    | '=' :: v =>
      if v ≠ [] then .attr_exact (pyLower (String.mk K)) (String.mk v)
      else .any_substr "" r
    | '~' :: '/' :: tail =>
      if tail.length ≥ 2 ∧ tail.getLast? = some '/' then
        .attr_regex (pyLower (String.mk K)) (String.mk tail.dropLast)
      else .any_substr "" r
    | _ => .any_substr "" r
  else .any_substr "" r

/-- Model of the expression " || ".join([...]) in item_matches. -/
def anyHay (it : Item) : String :=
  String.intercalate " || "
    [getA it.attrs "tvg-id", getA it.attrs "tvg-name",
     getA it.attrs "group-title", it.display]

/-- Model of item_matches.  rex is the oracle for re.search(pat, val, re.I):
    .ok b means the search ran and found a match iff b, .error () means the
    re.error exception (invalid pattern), which the code turns into False. -/
def item_matches (rex : String → String → Except Unit Bool)
    (it : Item) : RuleP → Bool
  | .attr_exact attr pat =>
    let val := if attr == "display" then it.display else getA it.attrs attr
    pyNorm val == pyNorm pat
  | .attr_regex attr pat =>
    let val := if attr == "display" then it.display else getA it.attrs attr
    (match rex pat val with
     | .ok b => b
     | .error _ => false)
  | .any_substr _ pat => pyContains (pyNorm (anyHay it)) (pyNorm pat)

/-! ## Filter pipeline -/

/-- The module constant ALLOWED_LANGS. -/
def allowedLangs : List String := ["en", "eng", "english"]

/-- Model of re.split(r"[;,/|]", val). -/
def splitLang (val : String) : List String :=
  (splitP (fun c => c == ';' || c == ',' || c == '/' || c == '|') val.data).map String.mk

/-- Model of lang_ok, with the (in the source, module-global) ENGLISH_ONLY
    toggle passed explicitly. -/
def lang_ok (englishOnly : Bool) (it : Item) : Bool :=
  if !englishOnly then true
  else
    let val := getA it.attrs "tvg-language"
    let parts := ((splitLang val).filter (fun p => pyStrip p != "")).map pyNorm
    parts.any (fun p => allowedLangs.contains p) || val == ""

/-- Model of apply_lists: the language gate, then the allowlist gate (if any
    allow rules exist, at least one must match), then the denylist gate. -/
def apply_lists (rex : String → String → Except Unit Bool) (englishOnly : Bool)
    (allowRules denyRules : List String) (items : List Item) : List Item :=
  let ap := allowRules.map parse_rule
  let dp := denyRules.map parse_rule
  items.filter (fun it =>
    lang_ok englishOnly it &&
    (ap.isEmpty || ap.any (fun r => item_matches rex it r)) &&
    !(!dp.isEmpty && dp.any (fun r => item_matches rex it r)))

/-! ## Preference pass (prefer) -/

/-- Score of a URL in prefer(), with the module constants PREFER_HTTPS and
    PREFER_M3U8 passed explicitly: +2 for an https:// prefix (checked on the
    lowercased URL) when enabled, +1 for a .m3u8 suffix when enabled. -/
def score (preferHttps preferM3u8 : Bool) (u : String) : Nat :=
  (if preferHttps && pyStartsWith (pyLower u) "https://" then 2 else 0) +
  (if preferM3u8 && pyEndsWith (pyLower u) ".m3u8" then 1 else 0)

/-- Grouping key of prefer():
    (attrs.get("tvg-id") or attrs.get("tvg-name") or display).lower(),
    where a missing key and an empty value are equally falsy. -/
def keyOf (it : Item) : String :=
  pyLower (if getA it.attrs "tvg-id" != "" then getA it.attrs "tvg-id"
           else if getA it.attrs "tvg-name" != "" then getA it.attrs "tvg-name"
           else it.display)

/-- Model of buckets.setdefault(k, []).append(it) on a dict in insertion
    order: append to the existing bucket, else add a new bucket at the end. -/
def addToBucket : List (String × List Item) → String → Item → List (String × List Item)
  | [], k, it => [(k, [it])]
  | (k', l) :: rest, k, it =>
    if k' == k then (k', l ++ [it]) :: rest
    else (k', l) :: addToBucket rest k it

/-- The buckets dict of prefer() after the grouping loop. -/
def bucketsOf (items : List Item) : List (String × List Item) :=
  items.foldl (fun acc it => addToBucket acc (keyOf it) it) []

/-- Model of Python max(best :: l, key=f): replace the current best only on a
    strictly greater key, so the first of several maxima wins. -/
def pyMax (f : Item → Nat) : Item → List Item → Item
  | best, [] => best
  | best, x :: xs => if f x > f best then pyMax f x xs else pyMax f best xs

/-- Model of prefer(): group, then keep max(lst, key=score) of each bucket,
    in bucket (key-first-seen) order.  Buckets are never empty; the
    filterMap skips the impossible empty case. -/
def prefer (preferHttps preferM3u8 : Bool) (items : List Item) : List Item :=
  (bucketsOf items).filterMap (fun kl =>
    match kl.2 with
    | [] => none
    | h :: t => some (pyMax (fun it => score preferHttps preferM3u8 it.url) h t))

/-! ## Identity dedup pass (dedup) -/

/-- Dedup key of one entry for a given key name, as computed inside the loop
    of dedup(): the key attribute (for tvg-name falling back to the display
    name when missing or empty), normalized; if the normalized value is
    empty, the normalized display name. -/
def dedupKeyVal (key : String) (it : Item) : String :=
  let val := if getA it.attrs key != "" then getA it.attrs key
             else (if key == "tvg-name" then it.display else "")
  let k := pyNorm val
  if k == "" then pyNorm it.display else k

/-- Loop of dedup() with its seen set (modelled as a list); the per-entry
    key computation is factored out as dedupKeyVal. -/
def dedupGo (key : String) (seen : List String) : List Item → List Item
  | [] => []
  | it :: rest =>
    if seen.contains (dedupKeyVal key it) then dedupGo key seen rest
    else it :: dedupGo key (dedupKeyVal key it :: seen) rest

/-- Model of dedup(items, key): an unknown key name falls back to "tvg-id",
    "none" disables the pass. -/
def dedup (items : List Item) (key : String) : List Item :=
  let key := if key == "tvg-id" || key == "tvg-name" || key == "none" then key
             else "tvg-id"
  if key == "none" then items else dedupGo key [] items

/-! ## Playlist writer (write_m3u) -/

/-- Attribute names kept by write_m3u, in its fixed order. -/
def keptKeys : List String :=
  ["tvg-id", "tvg-name", "tvg-chno", "tvg-language", "tvg-country",
   "group-title", "tvg-logo"]

/-- The kept (key, value) pairs of one entry: the kept keys in order, only
    those with a non-empty value. -/
def keptPairs (it : Item) : List (String × String) :=
  keptKeys.filterMap (fun k =>
    if getA it.attrs k != "" then some (k, getA it.attrs k) else none)

/-- One rendered attribute, the f-string k="v". -/
def attrPart (kv : String × String) : String := kv.1 ++ "=\"" ++ kv.2 ++ "\""

/-- Join with single spaces, Python " ".join. -/
def joinSpace : List String → String
  | [] => ""
  | [s] => s
  | s :: ss => s ++ " " ++ joinSpace ss

/-- The EXTINF line write_m3u emits for one entry. -/
def extinfLineOf (it : Item) : String :=
  "#EXTINF:-1 " ++ joinSpace ((keptPairs it).map attrPart) ++ "," ++ it.display

/-- Model of write_m3u: the text written to the output file (the header
    line, then per entry its EXTINF line and its URL line, joined with
    line feeds). -/
def write_m3u (items : List Item) : String :=
  String.mk (joinLines
    (("#EXTM3U" :: items.flatMap (fun it => [extinfLineOf it, it.url])).map String.data))

/-- The (tvg-id, display, url) triple of an entry, the view the round-trip
    property speaks about. -/
def tripleOf (it : Item) : String × String × String :=
  (getA it.attrs "tvg-id", it.display, it.url)

/-! ## Channel matcher (generate_channels_xml.py) -/

/-- ChannelRecord: one channel element of a catalog file, its four
    attributes and its text content (absent attributes and text modelled as
    empty strings, matching the (x or "") reads in the source). -/
structure Channel where
  site : String
  lang : String
  xmltv_id : String
  site_id : String
  text : String
deriving DecidableEq, Repr

/-- Semantics of re.search(r'tvg-id="([^"]+)"', line): at the leftmost
    occurrence of the literal prefix, the greedy group needs at least one
    quote-free character and a closing quote; otherwise the scan advances
    one character. -/
def findTvgId : List Char → Option String
  | [] => none
  | c :: cs =>
    if "tvg-id=\"".data.isPrefixOf (c :: cs) then
      let after := (c :: cs).drop 8
      let v := after.takeWhile (· != '"')
      if v ≠ [] ∧ after.dropWhile (· != '"') ≠ [] then some (String.mk v)
      else findTvgId cs
    else findTvgId cs

/-- Order-preserving dedup with a seen set, as in read_tvg_ids_from_m3u. -/
def dedupSeen (seen : List String) : List String → List String
  | [] => []
  | x :: xs =>
    if seen.contains x then dedupSeen seen xs
    else x :: dedupSeen (x :: seen) xs

/-- Model of read_tvg_ids_from_m3u over the file's lines: from every line
    starting with "#EXTINF", the first tvg-id match, stripped, kept when
    non-empty; then de-duplicated preserving first-seen order. -/
def read_tvg_ids (lines : List String) : List String :=
  dedupSeen []
    (lines.filterMap (fun ln =>
      if pyStartsWith ln "#EXTINF" then
        match findTvgId ln.data with
        | some v => if pyStrip v != "" then some (pyStrip v) else none
        | none => none
      else none))

/-- Model of xml.sax.saxutils.escape(v, extra entities for both quote
    characters): the five standard replacements, equivalently per character
    (replacement order in the library cannot interfere since the ampersand
    is replaced first and the introduced entities contain no other
    escapable character). -/
def escChar : Char → List Char
  | '&' => "&amp;".data
  | '<' => "&lt;".data
  | '>' => "&gt;".data
  | '"' => "&quot;".data
  | '\'' => "&apos;".data
  | c => [c]

/-- Escape a whole string. -/
def xmlEscape (s : String) : String := String.mk (s.data.flatMap escChar)

/-- Model of render_channel_line: fixed attribute order, stripped and
    escaped values, the stripped and escaped text as the element body. -/
def render_channel_line (ch : Channel) : String :=
  "<channel site=\"" ++ xmlEscape (pyStrip ch.site) ++
  "\" lang=\"" ++ xmlEscape (pyStrip ch.lang) ++
  "\" xmltv_id=\"" ++ xmlEscape (pyStrip ch.xmltv_id) ++
  "\" site_id=\"" ++ xmlEscape (pyStrip ch.site_id) ++
  "\">" ++ xmlEscape (pyStrip ch.text) ++ "</channel>"

/-- The rendered lines of collect_matches: every channel of every file (in
    file order, then document order) whose stripped xmltv_id is non-empty
    and a member of the requested set. -/
def matchLines (tvgIds : List String) (files : List (List Channel)) : List String :=
  files.flatMap (fun chans => chans.filterMap (fun ch =>
    if pyStrip ch.xmltv_id ≠ "" ∧ pyStrip ch.xmltv_id ∈ tvgIds
    then some (render_channel_line ch) else none))

/-- The found_ids set of collect_matches, as the list of found keys. -/
def foundIds (tvgIds : List String) (files : List (List Channel)) : List String :=
  files.flatMap (fun chans => chans.filterMap (fun ch =>
    if pyStrip ch.xmltv_id ≠ "" ∧ pyStrip ch.xmltv_id ∈ tvgIds
    then some (pyStrip ch.xmltv_id) else none))

/-- Model of collect_matches: the rendered lines and the set difference
    tvg_ids - found_ids (as the sublist of requested identifiers without a
    match, set-equal to Python's set difference). -/
def collect_matches (tvgIds : List String) (files : List (List Channel)) :
    List String × List String :=
  (matchLines tvgIds files,
   tvgIds.filter (fun id => id ∉ foundIds tvgIds files))

/-- Insertion into a sorted list, ascending. -/
def insertSorted (x : String) : List String → List String
  | [] => [x]
  | y :: ys => if x ≤ y then x :: y :: ys else y :: insertSorted x ys

/-- Insertion sort, the model of Python sorted() on strings (both orders
    are lexicographic by code point). -/
def sortStrings (l : List String) : List String := l.foldr insertSorted []

/-- Lines of the output document written by write_channels_list_xml. -/
def writeChannelsXml (lines : List String) : List String :=
  ["<?xml version=\"1.0\" encoding=\"UTF-8\"?>", "<channels>"] ++ lines ++ ["</channels>"]

/-- Result of one run of the channel matcher's main(): the exit code, the
    lines of the output file if one was written, and the sorted unmatched
    report printed at the end. -/
structure RunResult where
  exitCode : Nat
  written : Option (List String)
  report : List String
deriving DecidableEq, Repr

/-- Model of main() of generate_channels_xml.py on already-read inputs: the
    playlist's lines and the parsed catalog files.  Exit 2 (nothing
    written) when the playlist yields no identifiers; exit 3 (nothing
    written) when no catalog files were found; else write the document and
    report the unmatched identifiers sorted. -/
def mainModel (m3uLines : List String) (files : List (List Channel)) : RunResult :=
  let ids := read_tvg_ids m3uLines
  if ids.isEmpty then ⟨2, none, []⟩
  else if files.isEmpty then ⟨3, none, []⟩
  else
    let r := collect_matches ids files
    ⟨0, some (writeChannelsXml r.1), sortStrings r.2⟩

/-! ## Generic list lemmas used throughout -/

/-- Containment of character lists is exactly the infix relation. -/
lemma listContains_iff_infix (hay pat : List Char) :
    listContains hay pat = true ↔ pat <:+: hay := by
  induction hay with
  | nil => simp [listContains, List.isEmpty_iff]
  | cons c cs ih =>
    simp [listContains, List.infix_cons_iff, ih, List.isPrefixOf_iff_prefix]

/-! ## C5: the language gate -/

/-- Claim C5.  With language filtering enabled, an entry passes the gate iff
    some token of its tvg-language value, split on the four separator
    characters and normalized, lies in the allowed set, or the field is
    blank (the empty string, which is also the value of a missing
    attribute). -/
theorem lang_gate_iff (it : Item) :
    lang_ok true it = true ↔
      ((∃ p ∈ splitLang (getA it.attrs "tvg-language"), pyNorm p ∈ allowedLangs) ∨
        getA it.attrs "tvg-language" = "") := by
  simp only [lang_ok, Bool.not_true, Bool.false_eq_true, if_false,
    Bool.or_eq_true, List.any_eq_true, List.mem_map, List.mem_filter,
    beq_iff_eq]
  constructor
  · rintro (⟨x, ⟨a, ⟨ha, _⟩, rfl⟩, hcont⟩ | hval)
    · exact Or.inl ⟨a, ha, List.elem_iff.mp hcont⟩
    · exact Or.inr hval
  · rintro (⟨p, hp, hmem⟩ | hval)
    · refine Or.inl ⟨pyNorm p, ⟨p, ⟨hp, ?_⟩, rfl⟩, List.elem_iff.mpr hmem⟩
      by_contra hstrip
      simp only [bne_iff_ne, ne_eq, not_not] at hstrip
      have hn : pyNorm p = "" := by unfold pyNorm; rw [hstrip]; rfl
      rw [hn] at hmem
      simp [allowedLangs] at hmem
    · exact Or.inr hval

/-! ## C8: invalid regex rules fail closed -/

/-- Claim C8.  If the oracle for re.search raises re.error on a pattern (as
    it does, for every haystack, when the pattern is not a valid regular
    expression), an AttributeRegex rule with that pattern matches nothing:
    item_matches returns false rather than propagating the error. -/
theorem invalid_regex_never_matches
    (rex : String → String → Except Unit Bool) (it : Item) (attr pat : String)
    (herr : ∀ s, rex pat s = .error ()) :
    item_matches rex it (.attr_regex attr pat) = false := by
  simp only [item_matches, herr]

/-- Witness for C8 at a concrete malformed pattern and entry. -/
theorem invalid_regex_never_matches_witness :
    item_matches (fun _ _ => Except.error ()) ⟨[], "", ""⟩ (.attr_regex "tvg-id" "(") = false :=
  invalid_regex_never_matches (fun _ _ => Except.error ()) ⟨[], "", ""⟩ "tvg-id" "("
    (fun _ => rfl)

/-! ## C7: exit codes of the channel matcher -/

/-- Claim C7.  The matcher's main exits with code 2 when the playlist yields
    no tvg-id identifiers, and (when identifiers exist) with code 3 when no
    catalog files are found; in both cases nothing is written and no report
    is printed. -/
theorem main_exit_codes (m3uLines : List String) (files : List (List Channel)) :
    (read_tvg_ids m3uLines = [] →
      mainModel m3uLines files = ⟨2, none, []⟩) ∧
    (read_tvg_ids m3uLines ≠ [] → files = [] →
      mainModel m3uLines files = ⟨3, none, []⟩) := by
  constructor
  · intro h
    simp [mainModel, h]
  · intro h hf
    simp [mainModel, List.isEmpty_iff, h, hf]

/-! ## C2: substring rules (corrected) -/

/-- Plain concatenation of the four searched fields, as claim C2 words it
    (the code joins them with a " || " separator instead). -/
def concatHay (it : Item) : String :=
  getA it.attrs "tvg-id" ++ getA it.attrs "tvg-name" ++
  getA it.attrs "group-title" ++ it.display

/-- Matching as claim C2 states it: the rule text, lowercased, occurs in the
    lowercased plain concatenation. -/
def substrClaim (it : Item) (pat : String) : Bool :=
  listContains (pyLower (concatHay it)).data (pyLower pat).data

/-- Counterexample to C2 as stated: the rule "a |" matches the entry with
    tvg-id "a" and no other fields (its text occurs across the separators
    the code inserts), yet it is not a substring of the concatenation of the
    fields, however compared case-insensitively. -/
theorem substr_rule_counterexample :
    item_matches (fun _ _ => Except.error ()) ⟨[("tvg-id", "a")], "", ""⟩
        (.any_substr "" "a |") = true ∧
      substrClaim ⟨[("tvg-id", "a")], "", ""⟩ "a |" = false := by
  constructor
  · decide
  · decide

/-- Claim C2 as amended.  A Substring rule matches iff the normalized
    (stripped, lowercased) rule text occurs contiguously in the normalized
    join of tvg-id, tvg-name, group-title and display name with the
    separator " || ". -/
theorem substr_rule_iff (rex : String → String → Except Unit Bool)
    (it : Item) (a pat : String) :
    item_matches rex it (.any_substr a pat) = true ↔
      (pyNorm pat).data <:+: (pyNorm (anyHay it)).data := by
  simp only [item_matches, pyContains, listContains_iff_infix]


/-! ## C4: identity dedup keeps the first entry per key -/

/-- Dedup key as claim C4 words it: the key attribute's normalized value,
    or the normalized display name when the attribute is missing or its
    normalized value is empty. -/
def dedupKeySpec (key : String) (it : Item) : String :=
  if pyNorm (getA it.attrs key) == "" then pyNorm it.display
  else pyNorm (getA it.attrs key)

/-- The loop key of dedup() agrees with the claim's description, for every
    key name. -/
lemma dedupKeyVal_eq_spec (key : String) (it : Item) :
    dedupKeyVal key it = dedupKeySpec key it := by
  have hempty : pyNorm "" = "" := rfl
  unfold dedupKeyVal dedupKeySpec
  by_cases hname : key = "tvg-name"
  · subst hname
    by_cases hget : getA it.attrs "tvg-name" = ""
    · simp [hget, hempty]
    · simp [hget]
  · by_cases hget : getA it.attrs key = ""
    · simp [hget, hname, hempty]
    · simp [hget]

/-- Declarative keep-first-per-key: keep the head, drop every later entry
    with the head's key, recurse. -/
def keepFirst (f : Item → String) : List Item → List Item
  | [] => []
  | x :: xs => x :: keepFirst f (xs.filter (fun y => f y != f x))
termination_by l => l.length
decreasing_by
  all_goals simp_wf
  all_goals exact Nat.lt_succ_of_le (List.length_filter_le _ _)

/-- The seen-set loop of dedup() equals keep-first-per-key on the sublist of
    entries whose key is not yet seen. -/
lemma dedupGo_eq_keepFirst (key : String) (l : List Item) :
    ∀ seen : List String,
      dedupGo key seen l =
        keepFirst (dedupKeyVal key)
          (l.filter (fun it => !seen.contains (dedupKeyVal key it))) := by
  induction l with
  | nil => intro seen; simp [dedupGo, keepFirst]
  | cons it rest ih =>
    intro seen
    by_cases hs : seen.contains (dedupKeyVal key it)
    · rw [List.filter_cons_of_neg (by simpa using hs)]
      show dedupGo key seen (it :: rest) = _
      rw [dedupGo, if_pos hs]
      exact ih seen
    · rw [List.filter_cons_of_pos (by simpa using hs)]
      show dedupGo key seen (it :: rest) = _
      rw [dedupGo, if_neg hs, keepFirst]
      congr 1
      rw [List.filter_filter, ih (dedupKeyVal key it :: seen)]
      congr 1
      apply List.filter_congr
      intro y _
      by_cases h1 : dedupKeyVal key y = dedupKeyVal key it <;>
        by_cases h2 : seen.contains (dedupKeyVal key y) <;>
          simp [h1, h2, List.contains_cons]

/-- Claim C4.  For the dedup keys tvg-id and tvg-name the pass keeps exactly
    the first entry per distinct normalized key value (the display name
    standing in where the attribute is missing or normalizes to empty) and
    drops all later entries with the same key; with key "none" the list is
    returned unchanged. -/
theorem dedup_first_per_key (items : List Item) :
    dedup items "tvg-id" = keepFirst (dedupKeySpec "tvg-id") items ∧
    dedup items "tvg-name" = keepFirst (dedupKeySpec "tvg-name") items ∧
    dedup items "none" = items := by
  have hfun : ∀ key, dedupKeyVal key = dedupKeySpec key :=
    fun key => funext (fun it => dedupKeyVal_eq_spec key it)
  refine ⟨?_, ?_, rfl⟩
  · calc dedup items "tvg-id" = dedupGo "tvg-id" [] items := rfl
      _ = keepFirst (dedupKeyVal "tvg-id")
            (items.filter (fun it =>
              !([] : List String).contains (dedupKeyVal "tvg-id" it))) :=
        dedupGo_eq_keepFirst _ _ []
      _ = keepFirst (dedupKeySpec "tvg-id") items := by simp [hfun]
  · calc dedup items "tvg-name" = dedupGo "tvg-name" [] items := rfl
      _ = keepFirst (dedupKeyVal "tvg-name")
            (items.filter (fun it =>
              !([] : List String).contains (dedupKeyVal "tvg-name" it))) :=
        dedupGo_eq_keepFirst _ _ []
      _ = keepFirst (dedupKeySpec "tvg-name") items := by simp [hfun]

/-! ## C9: pipeline stages only select, never rewrite -/

/-- Membership through pyMax: the chosen entry is the running best or one of
    the remaining candidates. -/
lemma pyMax_mem (f : Item → Nat) (best : Item) (l : List Item) :
    pyMax f best l ∈ best :: l := by
  induction l generalizing best with
  | nil => simp [pyMax]
  | cons x xs ih =>
    rw [pyMax]
    by_cases h : f x > f best
    · rw [if_pos h]
      have := ih x
      simp only [List.mem_cons] at this ⊢
      tauto
    · rw [if_neg h]
      have := ih best
      simp only [List.mem_cons] at this ⊢
      tauto

/-- Every entry stored in any bucket of the grouping fold came from the
    accumulator or from the traversed list. -/
lemma addToBucket_mem (acc : List (String × List Item)) (k : String) (it x : Item)
    (kl : String × List Item) (hkl : kl ∈ addToBucket acc k it) (hx : x ∈ kl.2) :
    (∃ kl' ∈ acc, x ∈ kl'.2) ∨ x = it := by
  induction acc with
  | nil =>
    simp [addToBucket] at hkl
    subst hkl
    simp at hx
    exact Or.inr hx
  | cons p rest ih =>
    rw [addToBucket] at hkl
    by_cases he : p.1 == k
    · rw [if_pos he] at hkl
      rcases List.mem_cons.mp hkl with h1 | h1
      · subst h1
        rcases List.mem_append.mp hx with h2 | h2
        · exact Or.inl ⟨p, List.mem_cons_self .., h2⟩
        · simp at h2
          exact Or.inr h2
      · exact Or.inl ⟨kl, List.mem_cons_of_mem _ h1, hx⟩
    · rw [if_neg he] at hkl
      rcases List.mem_cons.mp hkl with h1 | h1
      · exact Or.inl ⟨kl, h1 ▸ List.mem_cons_self .., hx⟩
      · rcases ih h1 with ⟨kl', h2, h3⟩ | h2
        · exact Or.inl ⟨kl', List.mem_cons_of_mem _ h2, h3⟩
        · exact Or.inr h2

/-- Every entry stored in the buckets of prefer() is one of the input
    entries. -/
lemma bucketsOf_mem (items : List Item) (kl : String × List Item) (x : Item)
    (hkl : kl ∈ bucketsOf items) (hx : x ∈ kl.2) : x ∈ items := by
  suffices h : ∀ (l : List Item) (acc : List (String × List Item)),
      (∀ kl' ∈ acc, ∀ y ∈ kl'.2, y ∈ items) → (∀ y ∈ l, y ∈ items) →
      ∀ kl' ∈ l.foldl (fun a it => addToBucket a (keyOf it) it) acc,
        ∀ y ∈ kl'.2, y ∈ items by
    exact h items [] (by simp) (fun y hy => hy) kl hkl x hx
  intro l
  induction l with
  | nil => intro acc hacc _ kl' hkl' y hy; exact hacc kl' hkl' y hy
  | cons it rest ih =>
    intro acc hacc hl kl' hkl' y hy
    refine ih (addToBucket acc (keyOf it) it) ?_ (fun z hz => hl z (List.mem_cons_of_mem _ hz)) kl' hkl' y hy
    intro kl'' hkl'' z hz
    rcases addToBucket_mem acc (keyOf it) it z kl'' hkl'' hz with ⟨kl3, h3, h4⟩ | h3
    · exact hacc kl3 h3 z h4
    · subst h3
      exact hl z (List.mem_cons_self ..)

/-- Claim C9.  Each stage of the filter pipeline — rule filtering,
    prefer-best-URL, identity dedup — emits only entries of its input,
    unchanged (so in particular no URL is ever rewritten, only selected). -/
theorem stages_only_select :
    (∀ (rex : String → String → Except Unit Bool) (eo : Bool)
       (ar dr : List String) (items : List Item) (x : Item),
        x ∈ apply_lists rex eo ar dr items → x ∈ items) ∧
    (∀ (hp hm : Bool) (items : List Item) (x : Item),
        x ∈ prefer hp hm items → x ∈ items) ∧
    (∀ (items : List Item) (key : String) (x : Item),
        x ∈ dedup items key → x ∈ items) := by
  refine ⟨?_, ?_, ?_⟩
  · intro rex eo ar dr items x hx
    exact (List.mem_filter.mp hx).1
  · intro hp hm items x hx
    rw [prefer] at hx
    rcases List.mem_filterMap.mp hx with ⟨kl, hkl, hmk⟩
    rcases hl2 : kl.2 with _ | ⟨h0, t0⟩
    · rw [hl2] at hmk
      simp at hmk
    · rw [hl2] at hmk
      simp only [Option.some_inj] at hmk
      have hmem := pyMax_mem (fun it => score hp hm it.url) h0 t0
      rw [hmk] at hmem
      have : x ∈ kl.2 := by rw [hl2]; exact hmem
      exact bucketsOf_mem items kl x hkl this
  · intro items key x hx
    rw [dedup] at hx
    by_cases hkey : (if key == "tvg-id" || key == "tvg-name" || key == "none" then key else "tvg-id") == "none"
    · simp only [hkey, if_pos] at hx
      simpa using hx
    · rw [if_neg (by simpa using hkey)] at hx
      revert hx
      generalize (if key == "tvg-id" || key == "tvg-name" || key == "none" then key else "tvg-id") = k
      suffices h : ∀ (l : List Item) (seen : List String) (y : Item),
          y ∈ dedupGo k seen l → y ∈ l by
        intro hx
        exact h items [] x hx
      intro l
      induction l with
      | nil => intro seen y hy; simp [dedupGo] at hy
      | cons it rest ih =>
        intro seen y hy
        rw [dedupGo] at hy
        by_cases hc : seen.contains (dedupKeyVal k it)
        · rw [if_pos hc] at hy
          exact List.mem_cons_of_mem _ (ih seen y hy)
        · rw [if_neg hc] at hy
          rcases List.mem_cons.mp hy with h1 | h1
          · exact h1 ▸ List.mem_cons_self ..
          · exact List.mem_cons_of_mem _ (ih _ y h1)

/-! ## C3: the preference pass groups by key and keeps the first best -/

/-- Keys of the entries in first-seen order (the iteration order of the
    buckets dict). -/
def firstKeys : List Item → List String
  | [] => []
  | it :: rest => keyOf it :: (firstKeys rest).filter (fun k => k != keyOf it)

/-- The group of entries sharing a key, in input order. -/
def groupOf (items : List Item) (k : String) : List Item :=
  items.filter (fun it => keyOf it == k)

/-- Greatest score among a list of entries (0 when empty). -/
def maxScoreOf (f : Item → Nat) (l : List Item) : Nat :=
  l.foldr (fun it m => max (f it) m) 0

/-- First entry of a group achieving its greatest score. -/
def firstBest (f : Item → Nat) (l : List Item) : Option Item :=
  l.find? (fun x => f x == maxScoreOf f l)

/-- Declarative description of the preference pass, in the claim's terms:
    one entry per key in first-seen key order, namely the first entry of
    that key's group whose URL score is the group's maximum. -/
def preferSpec (preferHttps preferM3u8 : Bool) (items : List Item) : List Item :=
  (firstKeys items).filterMap (fun k =>
    firstBest (fun it => score preferHttps preferM3u8 it.url) (groupOf items k))

lemma mem_firstKeys_iff (l : List Item) (k : String) :
    k ∈ firstKeys l ↔ ∃ it ∈ l, keyOf it = k := by
  induction l with
  | nil => simp [firstKeys]
  | cons it rest ih =>
    simp only [firstKeys, List.mem_cons, List.mem_filter, ih, bne_iff_ne, ne_eq]
    constructor
    · rintro (rfl | ⟨⟨x, hx, rfl⟩, _⟩)
      · exact ⟨it, Or.inl rfl, rfl⟩
      · exact ⟨x, Or.inr hx, rfl⟩
    · rintro ⟨x, (rfl | hx), rfl⟩
      · exact Or.inl rfl
      · by_cases he : keyOf x = keyOf it
        · exact Or.inl he
        · exact Or.inr ⟨⟨x, hx, rfl⟩, he⟩

lemma firstKeys_nodup (l : List Item) : (firstKeys l).Nodup := by
  induction l with
  | nil => simp [firstKeys]
  | cons it rest ih =>
    rw [firstKeys]
    refine List.Nodup.cons ?_ (ih.filter _)
    intro hmem
    have := (List.mem_filter.mp hmem).2
    simp at this

lemma firstKeys_append_singleton (l : List Item) (it : Item) :
    firstKeys (l ++ [it]) =
      if keyOf it ∈ firstKeys l then firstKeys l
      else firstKeys l ++ [keyOf it] := by
  induction l with
  | nil => simp [firstKeys]
  | cons x rest ih =>
    rw [List.cons_append, firstKeys, ih, firstKeys]
    by_cases hmem : keyOf it ∈ firstKeys rest
    · rw [if_pos hmem, if_pos]
      simp only [List.mem_cons, List.mem_filter, bne_iff_ne, ne_eq]
      by_cases he : keyOf it = keyOf x
      · exact Or.inl he
      · exact Or.inr ⟨hmem, he⟩
    · rw [if_neg hmem]
      by_cases he : keyOf it = keyOf x
      · rw [if_pos (by simp [he]), List.filter_append]
        simp [he]
      · rw [if_neg ?hne, List.filter_append]
        · simp only [List.cons_append]
          congr 2
          simp [he]
        case hne =>
          simp only [List.mem_cons, List.mem_filter]
          rintro (h | ⟨h, _⟩)
          · exact he h
          · exact hmem h

lemma groupOf_append_singleton (l : List Item) (it : Item) (k : String) :
    groupOf (l ++ [it]) k =
      groupOf l k ++ if keyOf it == k then [it] else [] := by
  rw [groupOf, List.filter_append, groupOf]
  congr 1
  by_cases he : keyOf it == k
  · simp [List.filter_cons, he]
  · simp [List.filter_cons, he]

lemma string_beq_comm (a b : String) : (a == b) = (b == a) := by
  by_cases h : a = b
  · subst h; rfl
  · have h' : ¬ b = a := fun hh => h hh.symm
    simp [beq_iff_eq, h, h']

lemma addToBucket_of_mem (g : String → List Item) (it : Item) :
    ∀ (ks : List String), ks.Nodup → keyOf it ∈ ks →
      addToBucket (ks.map (fun k => (k, g k))) (keyOf it) it =
        ks.map (fun k => (k, g k ++ if keyOf it == k then [it] else [])) := by
  intro ks
  induction ks with
  | nil => simp
  | cons k0 rest ih =>
    intro hnd hmem
    rw [List.map_cons, addToBucket]
    by_cases he : (k0 == keyOf it) = true
    · rw [if_pos he]
      have hek : keyOf it = k0 := by rw [beq_iff_eq] at he; exact he.symm
      rw [List.map_cons, if_pos (by rw [beq_iff_eq]; exact hek)]
      congr 1
      apply (List.map_congr_left ?_).symm
      intro k hk
      have hne : (keyOf it == k) = false := by
        rw [beq_eq_false_iff_ne]
        intro hkk
        have hk0 : k0 = k := by rw [← hek, hkk]
        exact (List.nodup_cons.mp hnd).1 (hk0 ▸ hk)
      simp [hne]
    · rw [if_neg he]
      have hmem' : keyOf it ∈ rest := by
        rcases List.mem_cons.mp hmem with h | h
        · exact absurd (by rw [beq_iff_eq]; exact h.symm) he
        · exact h
      have hne : (keyOf it == k0) = false := by
        rw [string_beq_comm]
        exact Bool.not_eq_true _ ▸ he
      rw [List.map_cons, hne]
      simp only [Bool.false_eq_true, if_false, List.append_nil]
      rw [ih (List.nodup_cons.mp hnd).2 hmem']

lemma addToBucket_of_not_mem (g : String → List Item) (it : Item) :
    ∀ (ks : List String), keyOf it ∉ ks →
      addToBucket (ks.map (fun k => (k, g k))) (keyOf it) it =
        ks.map (fun k => (k, g k)) ++ [(keyOf it, [it])] := by
  intro ks
  induction ks with
  | nil => simp [addToBucket]
  | cons k0 rest ih =>
    intro hmem
    rw [List.map_cons, addToBucket]
    have he : (k0 == keyOf it) = false := by
      rw [beq_eq_false_iff_ne]
      intro h
      exact hmem (h ▸ List.mem_cons_self ..)
    rw [if_neg (by simp [he]), ih (fun h => hmem (List.mem_cons_of_mem _ h))]
    simp

/-- One step of the grouping fold extends the spec buckets by one entry. -/
lemma bucketStep (l : List Item) (it : Item) :
    addToBucket ((firstKeys l).map (fun k => (k, groupOf l k))) (keyOf it) it =
      (firstKeys (l ++ [it])).map (fun k => (k, groupOf (l ++ [it]) k)) := by
  by_cases hmem : keyOf it ∈ firstKeys l
  · rw [addToBucket_of_mem _ _ _ (firstKeys_nodup l) hmem,
      firstKeys_append_singleton, if_pos hmem]
    apply List.map_congr_left
    intro k _
    rw [groupOf_append_singleton]
  · rw [addToBucket_of_not_mem _ _ _ hmem,
      firstKeys_append_singleton, if_neg hmem, List.map_append]
    congr 1
    · apply List.map_congr_left
      intro k hk
      rw [groupOf_append_singleton]
      have hne : (keyOf it == k) = false := by
        rw [beq_eq_false_iff_ne]
        intro h
        exact hmem (h ▸ hk)
      simp [hne]
    · simp only [List.map_cons, List.map_nil]
      congr 2
      rw [groupOf_append_singleton]
      have hg : groupOf l (keyOf it) = [] := by
        rw [groupOf, List.filter_eq_nil_iff]
        intro x hx
        intro hbeq
        rw [beq_iff_eq] at hbeq
        exact hmem ((mem_firstKeys_iff l (keyOf it)).mpr ⟨x, hx, hbeq⟩)
      simp [hg]

/-- The grouping fold of prefer() builds exactly the per-key groups, keyed in
    first-seen order. -/
lemma bucketsOf_eq_spec (items : List Item) :
    bucketsOf items = (firstKeys items).map (fun k => (k, groupOf items k)) := by
  suffices h : ∀ (extra l : List Item),
      extra.foldl (fun acc it => addToBucket acc (keyOf it) it)
        ((firstKeys l).map (fun k => (k, groupOf l k))) =
      (firstKeys (l ++ extra)).map (fun k => (k, groupOf (l ++ extra) k)) by
    have h0 := h items []
    simpa [bucketsOf, firstKeys] using h0
  intro extra
  induction extra with
  | nil => intro l; simp
  | cons it rest ih =>
    intro l
    rw [List.foldl_cons, bucketStep, ih]
    simp

lemma le_maxScoreOf (f : Item → Nat) (l : List Item) (y : Item) (hy : y ∈ l) :
    f y ≤ maxScoreOf f l := by
  induction l with
  | nil => simp at hy
  | cons x xs ih =>
    rcases List.mem_cons.mp hy with rfl | h
    · exact le_max_left _ _
    · exact le_trans (ih h) (le_max_right _ _)

lemma pyMax_of_le (f : Item → Nat) (best : Item) (l : List Item)
    (h : ∀ y ∈ l, f y ≤ f best) : pyMax f best l = best := by
  induction l generalizing best with
  | nil => rfl
  | cons x xs ih =>
    rw [pyMax, if_neg (by simp only [gt_iff_lt, not_lt]; exact h x (List.mem_cons_self ..))]
    exact ih best (fun y hy => h y (List.mem_cons_of_mem _ hy))

/-- Python's max with a key function returns the first element attaining the
    maximum of the key. -/
lemma find_maxScore_eq_pyMax (f : Item → Nat) (l : List Item) :
    ∀ best : Item,
      (best :: l).find? (fun x => f x == maxScoreOf f (best :: l)) =
        some (pyMax f best l) := by
  induction l with
  | nil =>
    intro best
    rw [pyMax, List.find?_cons]
    have : maxScoreOf f [best] = f best := by
      simp [maxScoreOf]
    simp [this]
  | cons x xs ih =>
    intro best
    have hMx : maxScoreOf f (best :: x :: xs) =
        max (f best) (max (f x) (maxScoreOf f xs)) := rfl
    by_cases h : f x > f best
    · have hM : maxScoreOf f (best :: x :: xs) = maxScoreOf f (x :: xs) := by
        rw [hMx]
        have : f best ≤ max (f x) (maxScoreOf f xs) :=
          le_trans (le_of_lt h) (le_max_left _ _)
        exact max_eq_right this
      have hbest : (f best == maxScoreOf f (best :: x :: xs)) = false := by
        rw [beq_eq_false_iff_ne, hM]
        intro hc
        have : f x ≤ f best := hc ▸ le_maxScoreOf f (x :: xs) x (List.mem_cons_self ..)
        omega
      rw [pyMax, if_pos h, List.find?_cons, hbest, hM]
      exact ih x
    · have hM : maxScoreOf f (best :: x :: xs) = maxScoreOf f (best :: xs) := by
        rw [hMx]
        show max (f best) (max (f x) (maxScoreOf f xs)) = max (f best) (maxScoreOf f xs)
        omega
      rw [pyMax, if_neg h]
      by_cases hb : f best = maxScoreOf f (best :: x :: xs)
      · have h1 : (f best == maxScoreOf f (best :: x :: xs)) = true := by
          rw [beq_iff_eq]; exact hb
        rw [List.find?_cons, h1]
        have hall : ∀ y ∈ xs, f y ≤ f best := by
          intro y hy
          have h2 := le_maxScoreOf f (best :: x :: xs) y
            (List.mem_cons_of_mem _ (List.mem_cons_of_mem _ hy))
          omega
        rw [pyMax_of_le f best xs hall]
      · have h1 : (f best == maxScoreOf f (best :: x :: xs)) = false := by
          rw [beq_eq_false_iff_ne]; exact hb
        have hxle : f x ≤ f best := by omega
        have hblt : f best < maxScoreOf f (best :: x :: xs) := by
          have := le_maxScoreOf f (best :: x :: xs) best (List.mem_cons_self ..)
          omega
        have h2 : (f x == maxScoreOf f (best :: x :: xs)) = false := by
          rw [beq_eq_false_iff_ne]
          omega
        rw [List.find?_cons, h1, List.find?_cons, h2]
        have := ih best
        rw [List.find?_cons, ← hM] at this
        rw [h1] at this
        exact this

/-- Claim C3.  The preference pass equals its declarative description:
    entries are grouped by the key tvg-id / else tvg-name / else display
    name, lowercased; per group, in first-seen key order, exactly the first
    entry attaining the group's maximal URL score survives (so score ties
    keep the first-seen entry in group order). -/
theorem prefer_eq_spec (preferHttps preferM3u8 : Bool) (items : List Item) :
    prefer preferHttps preferM3u8 items = preferSpec preferHttps preferM3u8 items := by
  rw [prefer, preferSpec, bucketsOf_eq_spec, List.filterMap_map]
  apply List.filterMap_congr
  intro k hk
  simp only [Function.comp_apply]
  rcases (mem_firstKeys_iff items k).mp hk with ⟨it, hit, hkey⟩
  have hmem : it ∈ groupOf items k := by
    rw [groupOf, List.mem_filter]
    exact ⟨hit, by rw [beq_iff_eq]; exact hkey⟩
  cases hgr : groupOf items k with
  | nil =>
    rw [hgr] at hmem
    simp at hmem
  | cons h0 t0 =>
    show some (pyMax (fun it => score preferHttps preferM3u8 it.url) h0 t0) =
      firstBest (fun it => score preferHttps preferM3u8 it.url) (h0 :: t0)
    rw [firstBest]
    exact (find_maxScore_eq_pyMax _ t0 h0).symm

/-! ## C6: the unmatched-identifier report (corrected) -/

/-- The report main() prints: the identifiers without a match, sorted. -/
def unmatchedReport (tvgIds : List String) (files : List (List Channel)) : List String :=
  sortStrings ((collect_matches tvgIds files).2)

lemma mem_insertSorted (x y : String) (l : List String) :
    y ∈ insertSorted x l ↔ y = x ∨ y ∈ l := by
  induction l with
  | nil => simp [insertSorted]
  | cons z zs ih =>
    rw [insertSorted]
    by_cases h : x ≤ z
    · simp [h]
    · simp only [if_neg h, List.mem_cons, ih]
      tauto

lemma sorted_insertSorted (x : String) (l : List String)
    (hl : l.Sorted (· ≤ ·)) : (insertSorted x l).Sorted (· ≤ ·) := by
  induction l with
  | nil => simp [insertSorted]
  | cons z zs ih =>
    rw [insertSorted]
    rcases List.sorted_cons.mp hl with ⟨hz, hzs⟩
    by_cases h : x ≤ z
    · rw [if_pos h]
      refine List.sorted_cons.mpr ⟨?_, hl⟩
      intro b hb
      rcases List.mem_cons.mp hb with rfl | hb
      · exact h
      · exact le_trans h (hz b hb)
    · rw [if_neg h]
      refine List.sorted_cons.mpr ⟨?_, ih hzs⟩
      intro b hb
      rcases (mem_insertSorted x b zs).mp hb with rfl | hb
      · exact le_of_not_le h
      · exact hz b hb

lemma mem_sortStrings (l : List String) (x : String) :
    x ∈ sortStrings l ↔ x ∈ l := by
  induction l with
  | nil => simp [sortStrings]
  | cons y ys ih =>
    show x ∈ insertSorted y (sortStrings ys) ↔ _
    rw [mem_insertSorted, ih]
    simp

lemma sorted_sortStrings (l : List String) : (sortStrings l).Sorted (· ≤ ·) := by
  induction l with
  | nil => simp [sortStrings]
  | cons y ys ih => exact sorted_insertSorted y (sortStrings ys) ih

lemma mem_foundIds (tvgIds : List String) (files : List (List Channel)) (x : String) :
    x ∈ foundIds tvgIds files ↔
      ∃ chans ∈ files, ∃ ch ∈ chans,
        pyStrip ch.xmltv_id ≠ "" ∧ pyStrip ch.xmltv_id ∈ tvgIds ∧
        pyStrip ch.xmltv_id = x := by
  rw [foundIds]
  simp only [List.mem_flatMap, List.mem_filterMap]
  constructor
  · rintro ⟨chans, hf, ch, hch, hopt⟩
    by_cases hc : pyStrip ch.xmltv_id ≠ "" ∧ pyStrip ch.xmltv_id ∈ tvgIds
    · rw [if_pos hc, Option.some_inj] at hopt
      exact ⟨chans, hf, ch, hch, hc.1, hc.2, hopt⟩
    · rw [if_neg hc] at hopt
      cases hopt
  · rintro ⟨chans, hf, ch, hch, h1, h2, h3⟩
    exact ⟨chans, hf, ch, hch, by rw [if_pos ⟨h1, h2⟩, h3]⟩

/-- Counterexample to C6 as stated: the empty requested identifier.  A
    catalog record whose xmltv_id strips to the empty string is equal to
    the requested identifier "", yet the code's non-emptiness guard skips
    it, so "" is still reported as unmatched. -/
theorem unmatched_counterexample :
    (∃ chans ∈ [[(⟨"s", "en", "", "sid", "Name"⟩ : Channel)]], ∃ ch ∈ chans,
        pyStrip ch.xmltv_id = "") ∧
      "" ∈ unmatchedReport [""] [[(⟨"s", "en", "", "sid", "Name"⟩ : Channel)]] := by
  constructor
  · exact ⟨[(⟨"s", "en", "", "sid", "Name"⟩ : Channel)], by decide,
      (⟨"s", "en", "", "sid", "Name"⟩ : Channel), by decide, by decide⟩
  · decide

/-- Claim C6 as amended.  A requested identifier is reported as unmatched
    iff no channel record in any catalog file has a non-empty stripped
    xmltv_id exactly (case-sensitively) equal to it, and the report is
    sorted; in particular an identifier with such a match is never
    reported. -/
theorem unmatched_report_iff (tvgIds : List String) (files : List (List Channel)) :
    (∀ id : String,
      id ∈ unmatchedReport tvgIds files ↔
        (id ∈ tvgIds ∧
          ¬ ∃ chans ∈ files, ∃ ch ∈ chans,
              pyStrip ch.xmltv_id ≠ "" ∧ pyStrip ch.xmltv_id = id)) ∧
    (unmatchedReport tvgIds files).Sorted (· ≤ ·) := by
  constructor
  · intro id
    rw [unmatchedReport, mem_sortStrings, collect_matches]
    simp only [List.mem_filter, decide_not, Bool.not_eq_true', decide_eq_false_iff_not]
    constructor
    · rintro ⟨hid, hnf⟩
      refine ⟨hid, ?_⟩
      rintro ⟨chans, hf, ch, hch, h1, h3⟩
      exact hnf ((mem_foundIds tvgIds files id).mpr ⟨chans, hf, ch, hch, h1, h3 ▸ hid, h3⟩)
    · rintro ⟨hid, hno⟩
      refine ⟨hid, ?_⟩
      intro hmem
      rcases (mem_foundIds tvgIds files id).mp hmem with ⟨chans, hf, ch, hch, h1, _, h3⟩
      exact hno ⟨chans, hf, ch, hch, h1, h3⟩
  · exact sorted_sortStrings _

/-! ## C10: a second EXTINF line is swallowed as a comment -/

lemma tokenizeLoop_nil : tokenizeLoop [] = [] := by
  rw [tokenizeLoop]

lemma tokenizeLoop_cons_extinf (ln : String) (rest : List String)
    (h : pyStartsWith ln "#EXTINF" = true) :
    tokenizeLoop (ln :: rest) =
      extinfItem ln
          (match rest.dropWhile (fun l => pyStartsWith l "#") with
           | u :: _ => pyStrip u
           | [] => "") ::
        tokenizeLoop (rest.dropWhile (fun l => pyStartsWith l "#")).tail := by
  rw [tokenizeLoop, if_pos h]

lemma tokenizeLoop_cons_skip (ln : String) (rest : List String)
    (h : pyStartsWith ln "#EXTINF" = false) :
    tokenizeLoop (ln :: rest) = tokenizeLoop rest := by
  rw [tokenizeLoop, if_neg (by simp [h])]

lemma startsWith_hash_of_extinf (s : String)
    (h : pyStartsWith s "#EXTINF" = true) : pyStartsWith s "#" = true := by
  rw [pyStartsWith, List.isPrefixOf_iff_prefix] at h ⊢
  exact List.IsPrefix.trans (by decide) h

/-- Claim C10.  When an EXTINF line is immediately followed (after blank
    removal) by another EXTINF line, the tokenizer emits one entry built
    from the FIRST line, whose URL is the first non-comment line after
    both (the second EXTINF line, starting with the comment character, is
    skipped by the URL scan and yields no entry of its own); tokenization
    then resumes after that URL line. -/
theorem extinf_followed_by_extinf (text : String) (l1 l2 : String)
    (rest : List String) (u : String) (rest2 : List String)
    (hlines : filteredLines text = l1 :: l2 :: rest)
    (h1 : pyStartsWith l1 "#EXTINF" = true)
    (h2 : pyStartsWith l2 "#EXTINF" = true)
    (hurl : rest.dropWhile (fun l => pyStartsWith l "#") = u :: rest2) :
    tokenize_m3u text = extinfItem l1 (pyStrip u) :: tokenizeLoop rest2 := by
  rw [tokenize_m3u, hlines, tokenizeLoop_cons_extinf _ _ h1,
    List.dropWhile_cons, if_pos (startsWith_hash_of_extinf l2 h2), hurl]
  rfl

/-- Witness for C10 at a concrete three-line playlist. -/
theorem extinf_followed_by_extinf_witness :
    filteredLines "#EXTINF:-1 ,A\n#EXTINF:-1 ,B\nhttp://u" =
        ["#EXTINF:-1 ,A", "#EXTINF:-1 ,B", "http://u"] ∧
      tokenize_m3u "#EXTINF:-1 ,A\n#EXTINF:-1 ,B\nhttp://u" =
        extinfItem "#EXTINF:-1 ,A" (pyStrip "http://u") :: tokenizeLoop [] :=
  ⟨by decide,
   extinf_followed_by_extinf "#EXTINF:-1 ,A\n#EXTINF:-1 ,B\nhttp://u"
     "#EXTINF:-1 ,A" "#EXTINF:-1 ,B" ["http://u"] "http://u" []
     (by decide) (by decide) (by decide) (by decide)⟩

/-! ## C1: write-then-retokenize round trip (corrected) -/

lemma takeWhile_append_stop {p : Char → Bool} (l1 : List Char) (x : Char)
    (l2 : List Char) (h1 : ∀ c ∈ l1, p c = true) (hx : p x = false) :
    (l1 ++ x :: l2).takeWhile p = l1 := by
  induction l1 with
  | nil => simp [List.takeWhile_cons, hx]
  | cons c cs ih =>
    rw [List.cons_append, List.takeWhile_cons, h1 c (List.mem_cons_self ..),
      if_pos rfl, ih (fun d hd => h1 d (List.mem_cons_of_mem _ hd))]

lemma dropWhile_append_stop {p : Char → Bool} (l1 : List Char) (x : Char)
    (l2 : List Char) (h1 : ∀ c ∈ l1, p c = true) (hx : p x = false) :
    (l1 ++ x :: l2).dropWhile p = x :: l2 := by
  induction l1 with
  | nil => simp [List.dropWhile_cons, hx]
  | cons c cs ih =>
    rw [List.cons_append, List.dropWhile_cons, if_pos (h1 c (List.mem_cons_self ..)),
      ih (fun d hd => h1 d (List.mem_cons_of_mem _ hd))]

lemma findAttrPairs_nil : findAttrPairs [] = [] := by
  rw [findAttrPairs]

lemma findAttrPairs_skip (c : Char) (cs : List Char) (hc : isKeyChar c = false) :
    findAttrPairs (c :: cs) = findAttrPairs cs := by
  rw [findAttrPairs]
  simp [hc]

lemma findAttrPairs_success (k v tail : List Char) (hk : k ≠ [])
    (hkc : ∀ c ∈ k, isKeyChar c = true) (hv : ∀ c ∈ v, (c != '"') = true) :
    findAttrPairs (k ++ '=' :: '"' :: (v ++ '"' :: tail)) =
      (String.mk k, String.mk v) :: findAttrPairs tail := by
  cases k with
  | nil => exact absurd rfl hk
  | cons c cs =>
    have hdw : ((c :: cs) ++ '=' :: '"' :: (v ++ '"' :: tail)).dropWhile isKeyChar =
        '=' :: '"' :: (v ++ '"' :: tail) :=
      dropWhile_append_stop _ _ _ hkc (by decide)
    have htw : ((c :: cs) ++ '=' :: '"' :: (v ++ '"' :: tail)).takeWhile isKeyChar =
        c :: cs :=
      takeWhile_append_stop _ _ _ hkc (by decide)
    have hdv : (v ++ '"' :: tail).dropWhile (· != '"') = '"' :: tail :=
      dropWhile_append_stop _ _ _ hv (by decide)
    have htv : (v ++ '"' :: tail).takeWhile (· != '"') = v :=
      takeWhile_append_stop _ _ _ hv (by decide)
    rw [List.cons_append] at hdw htw
    rw [List.cons_append, findAttrPairs, dif_pos (hkc c (List.mem_cons_self ..))]
    split
    next rest2 harm =>
      have hr2 : rest2 = v ++ '"' :: tail := by
        have h := hdw.symm.trans harm
        injection h with e1 h1
        injection h1 with e2 h2
        exact h2.symm
      subst hr2
      rw [htw, htv, hdv]
      rfl
    next hne =>
      exact (hne _ hdw).elim

/-- One scan step of the header regex on a line of the writer's shape: the
    space-free run is "-1", the whitespace run eats the following space, and
    the lazy group ends at the first comma of the remainder (no comma: the
    run "-1" has none either, so no match). -/
lemma parseExtinf_eleven (rest : List Char) :
    parseExtinf (String.mk ('#' :: 'E' :: 'X' :: 'T' :: 'I' :: 'N' :: 'F' ::
        ':' :: '-' :: '1' :: ' ' :: rest)) =
      (if (rest.dropWhile isPyWs).contains ',' then
        some (String.mk ((rest.dropWhile isPyWs).takeWhile (· != ',')),
              String.mk (((rest.dropWhile isPyWs).dropWhile (· != ',')).tail))
      else none) := rfl

lemma not_ws_of_keyChar (c : Char) (h : isKeyChar c = true) : isPyWs c = false := by
  by_contra hws
  rw [Bool.not_eq_false, isPyWs] at hws
  simp only [Bool.or_eq_true, beq_iff_eq] at hws
  rcases hws with ((((rfl | rfl) | rfl) | rfl) | rfl) | rfl <;> exact absurd h (by decide)

lemma not_comma_of_keyChar (c : Char) (h : isKeyChar c = true) : (c != ',') = true := by
  rw [bne_iff_ne]
  rintro rfl
  exact absurd h (by decide)

/-- Characters of a space-join come from the parts or are the space. -/
lemma mem_data_joinSpace (ss : List String) (c : Char)
    (hc : c ∈ (joinSpace ss).data) : c = ' ' ∨ ∃ s ∈ ss, c ∈ s.data := by
  induction ss with
  | nil => simp [joinSpace] at hc
  | cons s ss ih =>
    cases ss with
    | nil =>
      simp only [joinSpace] at hc
      exact Or.inr ⟨s, List.mem_cons_self .., hc⟩
    | cons s2 ss2 =>
      have hj : joinSpace (s :: s2 :: ss2) = s ++ " " ++ joinSpace (s2 :: ss2) := rfl
      rw [hj, String.data_append, String.data_append] at hc
      rcases List.mem_append.mp hc with h | h
      · rcases List.mem_append.mp h with h1 | h1
        · exact Or.inr ⟨s, List.mem_cons_self .., h1⟩
        · simp at h1
          exact Or.inl h1
      · rcases ih h with h1 | ⟨t, ht, hct⟩
        · exact Or.inl h1
        · exact Or.inr ⟨t, List.mem_cons_of_mem _ ht, hct⟩

/-- Characters of one rendered attribute. -/
lemma mem_data_attrPart (kv : String × String) (c : Char)
    (hc : c ∈ (attrPart kv).data) :
    c ∈ kv.1.data ∨ c = '=' ∨ c = '"' ∨ c ∈ kv.2.data := by
  rw [attrPart, String.data_append, String.data_append, String.data_append] at hc
  rcases List.mem_append.mp hc with h | h
  · rcases List.mem_append.mp h with h1 | h1
    · rcases List.mem_append.mp h1 with h2 | h2
      · exact Or.inl h2
      · simp at h2
        rcases h2 with rfl | rfl
        · exact Or.inr (Or.inl rfl)
        · exact Or.inr (Or.inr (Or.inl rfl))
    · exact Or.inr (Or.inr (Or.inr h1))
  · simp at h
    exact Or.inr (Or.inr (Or.inl h))

/-- Well-formedness of an attribute value for the lossless round trip: no
    quote (which would break the attribute regex), no comma (which would
    shift the display-name split) and no line-break character. -/
def wfValue (s : String) : Prop :=
  ∀ c ∈ s.data, (c != '"') = true ∧ (c != ',') = true ∧ isPyLineBreak c = false

/-- Well-formedness of one entry for the lossless round trip: a non-empty,
    already-stripped URL that is no comment line and holds no line break; an
    already-stripped display name without line breaks; and well-formed
    values for the seven kept attributes. -/
def wfItem (it : Item) : Prop :=
  (∀ c ∈ it.url.data, isPyLineBreak c = false) ∧
  pyStrip it.url = it.url ∧
  it.url ≠ "" ∧
  pyStartsWith it.url "#" = false ∧
  pyStrip it.display = it.display ∧
  (∀ c ∈ it.display.data, isPyLineBreak c = false) ∧
  (∀ k ∈ keptKeys, wfValue (getA it.attrs k))

lemma mem_keptPairs (it : Item) (kv : String × String) (h : kv ∈ keptPairs it) :
    kv.1 ∈ keptKeys ∧ kv.2 = getA it.attrs kv.1 ∧ kv.2 ≠ "" := by
  rw [keptPairs] at h
  rcases List.mem_filterMap.mp h with ⟨k, hk, hopt⟩
  by_cases hne : getA it.attrs k != ""
  · rw [if_pos hne, Option.some_inj] at hopt
    subst hopt
    exact ⟨hk, rfl, bne_iff_ne.mp hne⟩
  · rw [if_neg hne] at hopt
    cases hopt

lemma keptKey_facts (k : String) (hk : k ∈ keptKeys) :
    k.data ≠ [] ∧ (∀ c ∈ k.data, isKeyChar c = true) := by
  rw [keptKeys] at hk
  simp only [List.mem_cons, List.not_mem_nil, or_false] at hk
  rcases hk with rfl | rfl | rfl | rfl | rfl | rfl | rfl <;>
    exact ⟨by decide, by decide⟩

lemma attrPart_data (kv : String × String) :
    (attrPart kv).data = kv.1.data ++ '=' :: '"' :: (kv.2.data ++ ['"']) := by
  rw [attrPart, String.data_append, String.data_append, String.data_append]
  have h1 : ("=\"" : String).data = ['=', '"'] := rfl
  have h2 : ("\"" : String).data = ['"'] := rfl
  rw [h1, h2]
  simp

lemma parts_comma_free (it : Item) (hv : ∀ k ∈ keptKeys, wfValue (getA it.attrs k)) :
    ∀ c ∈ (joinSpace ((keptPairs it).map attrPart)).data, (c != ',') = true := by
  intro c hc
  rcases mem_data_joinSpace _ _ hc with rfl | ⟨s, hs, hcs⟩
  · decide
  · rcases List.mem_map.mp hs with ⟨kv, hkv, rfl⟩
    rcases mem_keptPairs it kv hkv with ⟨hk, hval, _⟩
    rcases mem_data_attrPart kv c hcs with h | rfl | rfl | h
    · exact not_comma_of_keyChar c ((keptKey_facts kv.1 hk).2 c h)
    · decide
    · decide
    · exact (hv kv.1 hk c (hval ▸ h)).2.1

lemma parts_head (it : Item) :
    (joinSpace ((keptPairs it).map attrPart)).data = [] ∨
      ∃ c0 t, (joinSpace ((keptPairs it).map attrPart)).data = c0 :: t ∧
        isKeyChar c0 = true := by
  cases hkp : (keptPairs it).map attrPart with
  | nil => exact Or.inl rfl
  | cons p ps =>
    have hp : p ∈ (keptPairs it).map attrPart := by rw [hkp]; exact List.mem_cons_self ..
    rcases List.mem_map.mp hp with ⟨kv, hkv, rfl⟩
    rcases mem_keptPairs it kv hkv with ⟨hk, _, _⟩
    rcases keptKey_facts kv.1 hk with ⟨hne, hkc⟩
    rcases hd : kv.1.data with _ | ⟨c0, kt⟩
    · exact absurd hd hne
    · have hc0 : isKeyChar c0 = true := hkc c0 (by rw [hd]; exact List.mem_cons_self ..)
      cases ps with
      | nil =>
        refine Or.inr ⟨c0, kt ++ '=' :: '"' :: (kv.2.data ++ ['"']), ?_, hc0⟩
        show (attrPart kv).data = _
        rw [attrPart_data, hd]
        rfl
      | cons p2 ps2 =>
        have hj : joinSpace (attrPart kv :: p2 :: ps2) =
            attrPart kv ++ " " ++ joinSpace (p2 :: ps2) := rfl
        refine Or.inr ⟨c0,
          kt ++ ('=' :: '"' :: (kv.2.data ++ ['"']) ++ ' ' :: (joinSpace (p2 :: ps2)).data),
          ?_, hc0⟩
        rw [hj, String.data_append, String.data_append, attrPart_data, hd]
        simp

/-- On a well-formed entry the header regex recovers exactly the joined
    attribute text and the display name. -/
lemma parseExtinf_writer (it : Item)
    (hv : ∀ k ∈ keptKeys, wfValue (getA it.attrs k)) :
    parseExtinf (extinfLineOf it) =
      some (joinSpace ((keptPairs it).map attrPart), it.display) := by
  have hdata : (extinfLineOf it).data =
      '#' :: 'E' :: 'X' :: 'T' :: 'I' :: 'N' :: 'F' :: ':' :: '-' :: '1' :: ' ' ::
        ((joinSpace ((keptPairs it).map attrPart)).data ++ ',' :: it.display.data) := by
    rw [extinfLineOf, String.data_append, String.data_append, String.data_append]
    have h1 : ("#EXTINF:-1 " : String).data =
        ['#', 'E', 'X', 'T', 'I', 'N', 'F', ':', '-', '1', ' '] := rfl
    have h2 : ("," : String).data = [','] := rfl
    rw [h1, h2]
    simp
  have hmk : extinfLineOf it =
      String.mk ('#' :: 'E' :: 'X' :: 'T' :: 'I' :: 'N' :: 'F' :: ':' :: '-' :: '1' :: ' ' ::
        ((joinSpace ((keptPairs it).map attrPart)).data ++ ',' :: it.display.data)) :=
    String.ext hdata
  rw [hmk, parseExtinf_eleven]
  have hrem : ((joinSpace ((keptPairs it).map attrPart)).data ++
      ',' :: it.display.data).dropWhile isPyWs =
      (joinSpace ((keptPairs it).map attrPart)).data ++ ',' :: it.display.data := by
    rcases parts_head it with hnil | ⟨c0, t, heq, hkc⟩
    · rw [hnil, List.nil_append, List.dropWhile_cons, if_neg (by decide)]
    · rw [heq, List.cons_append, List.dropWhile_cons,
        if_neg (by rw [not_ws_of_keyChar c0 hkc]; exact Bool.false_ne_true)]
  rw [hrem]
  have hcomma : ((joinSpace ((keptPairs it).map attrPart)).data ++
      ',' :: it.display.data).contains ',' = true :=
    List.elem_iff.mpr (List.mem_append_right _ (List.mem_cons_self ..))
  rw [if_pos hcomma,
    takeWhile_append_stop _ _ _ (parts_comma_free it hv) (by decide),
    dropWhile_append_stop _ _ _ (parts_comma_free it hv) (by decide)]
  rfl

/-- The attribute scan inverts the writer's rendering: well-formed pairs are
    recovered exactly, in order. -/
lemma findAttrPairs_joinSpace :
    ∀ (ps : List (String × String)),
      (∀ kv ∈ ps, kv.1.data ≠ [] ∧ (∀ c ∈ kv.1.data, isKeyChar c = true) ∧
        (∀ c ∈ kv.2.data, (c != '"') = true)) →
      findAttrPairs (joinSpace (ps.map attrPart)).data = ps := by
  intro ps
  induction ps with
  | nil => intro _; exact findAttrPairs_nil
  | cons kv rest ih =>
    intro hps
    obtain ⟨hne, hkc, hvq⟩ := hps kv (List.mem_cons_self ..)
    cases rest with
    | nil =>
      show findAttrPairs (attrPart kv).data = [kv]
      rw [attrPart_data, findAttrPairs_success kv.1.data kv.2.data [] hne hkc hvq,
        findAttrPairs_nil]
    | cons kv2 rest2 =>
      have hj : joinSpace ((kv :: kv2 :: rest2).map attrPart) =
          attrPart kv ++ " " ++ joinSpace ((kv2 :: rest2).map attrPart) := rfl
      rw [hj, String.data_append, String.data_append, attrPart_data]
      have hsh : (kv.1.data ++ '=' :: '"' :: (kv.2.data ++ ['"'])) ++ (" " : String).data ++
          (joinSpace ((kv2 :: rest2).map attrPart)).data =
          kv.1.data ++ '=' :: '"' ::
            (kv.2.data ++ '"' :: (' ' :: (joinSpace ((kv2 :: rest2).map attrPart)).data)) := by
        simp
      rw [hsh, findAttrPairs_success _ _ _ hne hkc hvq, findAttrPairs_skip _ _ (by decide),
        ih (fun kv' hkv' => hps kv' (List.mem_cons_of_mem _ hkv'))]

lemma getA_setA_ne (m : List (String × String)) (k' v key : String) (h : k' ≠ key) :
    getA (setA m k' v) key = getA m key := by
  induction m with
  | nil =>
    rw [setA, getA, getA]
    simp [List.find?, beq_eq_false_iff_ne.mpr h]
  | cons p rest ih =>
    rw [setA]
    by_cases he : p.1 == k'
    · rw [if_pos he, getA, getA]
      have hp1 : (p.1 == key) = false := by
        rw [beq_iff_eq] at he
        exact beq_eq_false_iff_ne.mpr (he ▸ h)
      simp only [List.find?, hp1]
    · rw [if_neg he, getA, getA]
      by_cases hk : p.1 == key
      · simp only [List.find?, hk]
      · simp only [List.find?, hk]
        exact ih

lemma getA_singleton_self (k v : String) : getA [(k, v)] k = v := by
  rw [getA]
  simp [List.find?]

lemma getA_foldl_setA_ne (key : String) :
    ∀ (ps : List (String × String)) (m : List (String × String)),
      (∀ kv ∈ ps, pyLower kv.1 ≠ key) →
      getA (ps.foldl (fun m kv => setA m (pyLower kv.1) kv.2) m) key = getA m key := by
  intro ps
  induction ps with
  | nil => intro m _; rfl
  | cons kv rest ih =>
    intro m hps
    rw [List.foldl_cons, ih _ (fun kv' h => hps kv' (List.mem_cons_of_mem _ h)),
      getA_setA_ne _ _ _ _ (hps kv (List.mem_cons_self ..))]

/-- Re-tokenizing recovers the tvg-id value the writer emitted. -/
lemma buildAttrs_tvgid (it : Item) :
    getA (buildAttrs (keptPairs it)) "tvg-id" = getA it.attrs "tvg-id" := by
  rw [buildAttrs]
  by_cases h : getA it.attrs "tvg-id" = ""
  · have hall : ∀ kv ∈ keptPairs it, pyLower kv.1 ≠ "tvg-id" := by
      intro kv hkv
      rcases mem_keptPairs it kv hkv with ⟨hk, hval, hvne⟩
      rw [keptKeys] at hk
      simp only [List.mem_cons, List.not_mem_nil, or_false] at hk
      rcases hk with hk | hk | hk | hk | hk | hk | hk
      · exact absurd (hval.trans (by rw [hk, h])) hvne
      all_goals rw [hk]
      all_goals decide
    rw [getA_foldl_setA_ne "tvg-id" _ _ hall, h]
    rfl
  · have hcons : keptPairs it = ("tvg-id", getA it.attrs "tvg-id") ::
        (["tvg-name", "tvg-chno", "tvg-language", "tvg-country", "group-title",
          "tvg-logo"].filterMap (fun k =>
            if getA it.attrs k != "" then some (k, getA it.attrs k) else none)) := by
      rw [keptPairs, keptKeys, List.filterMap_cons]
      rw [if_pos (bne_iff_ne.mpr h)]
    rw [hcons, List.foldl_cons]
    have hrest : ∀ kv ∈ ["tvg-name", "tvg-chno", "tvg-language", "tvg-country",
        "group-title", "tvg-logo"].filterMap (fun k =>
          if getA it.attrs k != "" then some (k, getA it.attrs k) else none),
        pyLower kv.1 ≠ "tvg-id" := by
      intro kv hkv
      rcases List.mem_filterMap.mp hkv with ⟨k, hk, hopt⟩
      have hk1 : kv.1 = k := by
        by_cases hc : getA it.attrs k != ""
        · rw [if_pos hc, Option.some_inj] at hopt
          rw [← hopt]
        · rw [if_neg hc] at hopt
          cases hopt
      simp only [List.mem_cons, List.not_mem_nil, or_false] at hk
      rw [hk1]
      rcases hk with rfl | rfl | rfl | rfl | rfl | rfl <;> decide
    rw [getA_foldl_setA_ne "tvg-id" _ _ hrest]
    have hl : pyLower "tvg-id" = "tvg-id" := rfl
    rw [hl]
    show getA (setA [] "tvg-id" (getA it.attrs "tvg-id")) "tvg-id" = _
    rw [setA, getA_singleton_self]

lemma extinfLineOf_data (it : Item) :
    (extinfLineOf it).data =
      '#' :: 'E' :: 'X' :: 'T' :: 'I' :: 'N' :: 'F' :: ':' :: '-' :: '1' :: ' ' ::
        ((joinSpace ((keptPairs it).map attrPart)).data ++ ',' :: it.display.data) := by
  rw [extinfLineOf, String.data_append, String.data_append, String.data_append]
  have h1 : ("#EXTINF:-1 " : String).data =
      ['#', 'E', 'X', 'T', 'I', 'N', 'F', ':', '-', '1', ' '] := rfl
  have h2 : ("," : String).data = [','] := rfl
  rw [h1, h2]
  simp

lemma extinfLineOf_startsWith (it : Item) :
    pyStartsWith (extinfLineOf it) "#EXTINF" = true := by
  rw [pyStartsWith, List.isPrefixOf_iff_prefix, extinfLineOf_data]
  exact ⟨':' :: '-' :: '1' :: ' ' ::
    ((joinSpace ((keptPairs it).map attrPart)).data ++ ',' :: it.display.data), rfl⟩

/-- The tokenizer loop inverts the writer's per-entry block structure: each
    EXTINF line pairs with the following URL line. -/
lemma tokenizeLoop_writer (items : List Item) (hwf : ∀ it ∈ items, wfItem it) :
    tokenizeLoop (items.flatMap (fun it => [extinfLineOf it, it.url])) =
      items.map (fun it => extinfItem (extinfLineOf it) it.url) := by
  induction items with
  | nil => exact tokenizeLoop_nil
  | cons it rest ih =>
    obtain ⟨_, hstrip, _, hhash, _, _, _⟩ := hwf it (List.mem_cons_self ..)
    rw [List.flatMap_cons, List.cons_append, List.cons_append, List.nil_append]
    rw [tokenizeLoop_cons_extinf _ _ (extinfLineOf_startsWith it)]
    rw [List.dropWhile_cons, if_neg (by rw [hhash]; exact Bool.false_ne_true)]
    have hred : (match it.url :: (rest.flatMap fun it => [extinfLineOf it, it.url]) with
        | u :: _ => pyStrip u
        | [] => "") = it.url := hstrip
    rw [hred, List.tail_cons, ih (fun x hx => hwf x (List.mem_cons_of_mem _ hx)),
      List.map_cons]

/-- Re-parsing the written line of a well-formed entry preserves its
    (tvg-id, display, url) triple. -/
lemma tripleOf_reparse (it : Item) (hwf : wfItem it) :
    tripleOf (extinfItem (extinfLineOf it) it.url) = tripleOf it := by
  obtain ⟨_, _, _, _, hdisp, _, hv⟩ := hwf
  have hps : ∀ kv ∈ keptPairs it, kv.1.data ≠ [] ∧
      (∀ c ∈ kv.1.data, isKeyChar c = true) ∧
      (∀ c ∈ kv.2.data, (c != '"') = true) := by
    intro kv hkv
    rcases mem_keptPairs it kv hkv with ⟨hk, hval, _⟩
    rcases keptKey_facts kv.1 hk with ⟨hne, hkc⟩
    exact ⟨hne, hkc, fun c hc => (hv kv.1 hk c (hval ▸ hc)).1⟩
  rw [extinfItem, parseExtinf_writer it hv]
  show tripleOf
    { attrs := buildAttrs (findAttrPairs (joinSpace ((keptPairs it).map attrPart)).data)
      display := pyStrip (pyStrip it.display)
      url := it.url } = tripleOf it
  rw [findAttrPairs_joinSpace (keptPairs it) hps, tripleOf, tripleOf, buildAttrs_tvgid,
    hdisp, hdisp]

lemma splitP_ne_nil (p : Char → Bool) (l : List Char) : splitP p l ≠ [] := by
  cases l with
  | nil => simp [splitP]
  | cons c cs =>
    rw [splitP]
    rcases h : splitP p cs with _ | ⟨r, rs⟩
    · simp
    · by_cases hc : p c <;> simp [hc]

lemma splitP_no_sep (p : Char → Bool) (l : List Char)
    (h : ∀ c ∈ l, p c = false) : splitP p l = [l] := by
  induction l with
  | nil => rfl
  | cons c cs ih =>
    rw [splitP, ih (fun d hd => h d (List.mem_cons_of_mem _ hd))]
    show (if p c = true then [] :: cs :: [] else (c :: cs) :: []) = [c :: cs]
    rw [if_neg (by rw [h c (List.mem_cons_self ..)]; exact Bool.false_ne_true)]

lemma splitP_append_sep (p : Char → Bool) (l : List Char) (sep : Char)
    (rest : List Char) (hl : ∀ c ∈ l, p c = false) (hsep : p sep = true) :
    splitP p (l ++ sep :: rest) = l :: splitP p rest := by
  induction l with
  | nil =>
    rcases h : splitP p rest with _ | ⟨r, rs⟩
    · exact absurd h (splitP_ne_nil p rest)
    · rw [List.nil_append, splitP, h]
      show (if p sep = true then [] :: r :: rs else (sep :: r) :: rs) = [] :: (r :: rs)
      rw [if_pos hsep]
  | cons c cs ih =>
    rw [List.cons_append, splitP,
      ih (fun d hd => hl d (List.mem_cons_of_mem _ hd))]
    show (if p c = true then [] :: cs :: splitP p rest
      else (c :: cs) :: splitP p rest) = (c :: cs) :: splitP p rest
    rw [if_neg (by rw [hl c (List.mem_cons_self ..)]; exact Bool.false_ne_true)]

lemma splitP_joinLines :
    ∀ (ls : List (List Char)), ls ≠ [] →
      (∀ l ∈ ls, ∀ c ∈ l, (c == '\n') = false) →
      splitP (· == '\n') (joinLines ls) = ls := by
  intro ls
  induction ls with
  | nil => intro h; exact absurd rfl h
  | cons l rest ih =>
    intro _ hnl
    cases rest with
    | nil => exact splitP_no_sep _ l (hnl l (List.mem_cons_self ..))
    | cons l2 rest2 =>
      have hj : joinLines (l :: l2 :: rest2) = l ++ '\n' :: joinLines (l2 :: rest2) := rfl
      rw [hj, splitP_append_sep _ _ _ _ (hnl l (List.mem_cons_self ..)) (by decide),
        ih (by simp) (fun l' hl' => hnl l' (List.mem_cons_of_mem _ hl'))]

lemma ne_nl_of_not_lb (c : Char) (h : isPyLineBreak c = false) : (c == '\n') = false := by
  rw [beq_eq_false_iff_ne]
  rintro rfl
  exact absurd h (by decide)

lemma ne_nl_of_keyChar (c : Char) (h : isKeyChar c = true) : (c == '\n') = false := by
  rw [beq_eq_false_iff_ne]
  rintro rfl
  exact absurd h (by decide)

/-- No character of a well-formed entry's written lines is a line feed. -/
lemma writer_lines_no_nl (items : List Item) (hwf : ∀ it ∈ items, wfItem it) :
    ∀ l ∈ "#EXTM3U" :: items.flatMap (fun it => [extinfLineOf it, it.url]),
      ∀ c ∈ l.data, (c == '\n') = false := by
  intro l hl c hc
  rcases List.mem_cons.mp hl with rfl | hl
  · exact (by decide : ∀ d ∈ ("#EXTM3U" : String).data, (d == '\n') = false) c hc
  · rcases List.mem_flatMap.mp hl with ⟨it, hit, hmem⟩
    obtain ⟨hurl, _, _, _, _, hdispc, hv⟩ := hwf it hit
    simp only [List.mem_cons, List.not_mem_nil, or_false] at hmem
    rcases hmem with rfl | rfl
    · rw [extinfLineOf_data] at hc
      simp only [List.mem_cons, List.mem_append] at hc
      rcases hc with rfl | rfl | rfl | rfl | rfl | rfl | rfl | rfl | rfl | rfl | rfl | hc
      case _ => decide
      case _ => decide
      case _ => decide
      case _ => decide
      case _ => decide
      case _ => decide
      case _ => decide
      case _ => decide
      case _ => decide
      case _ => decide
      case _ => decide
      rcases hc with hc | hc
      · rcases mem_data_joinSpace _ _ hc with rfl | ⟨s, hs, hcs⟩
        · decide
        · rcases List.mem_map.mp hs with ⟨kv, hkv, rfl⟩
          rcases mem_keptPairs it kv hkv with ⟨hk, hval, _⟩
          rcases mem_data_attrPart kv c hcs with h | rfl | rfl | h
          · exact ne_nl_of_keyChar c ((keptKey_facts kv.1 hk).2 c h)
          · decide
          · decide
          · exact ne_nl_of_not_lb c (hv kv.1 hk c (hval ▸ h)).2.2
      · rcases hc with rfl | hc
        · decide
        · exact ne_nl_of_not_lb c (hdispc c hc)
    · exact ne_nl_of_not_lb c (hurl c hc)

lemma flat_last :
    ∀ (items : List Item) (_ : items ≠ []),
      ∃ it ∈ items,
        (items.flatMap fun it => [extinfLineOf it, it.url]).getLast? = some it.url := by
  intro items
  induction items with
  | nil => intro h; exact absurd rfl h
  | cons it rest ih =>
    intro _
    cases rest with
    | nil =>
      refine ⟨it, List.mem_cons_self .., ?_⟩
      rfl
    | cons it2 rest2 =>
      rcases ih (by simp) with ⟨it', hit', hlast⟩
      refine ⟨it', List.mem_cons_of_mem _ hit', ?_⟩
      rw [List.flatMap_cons, List.getLast?_append, hlast]
      rfl

/-- Splitting the writer's output recovers exactly the written lines. -/
lemma pySplitLines_writer (items : List Item) (hwf : ∀ it ∈ items, wfItem it) :
    pySplitLines (write_m3u items) =
      "#EXTM3U" :: items.flatMap (fun it => [extinfLineOf it, it.url]) := by
  rw [write_m3u, pySplitLines]
  have hsplit : splitP (· == '\n')
      (String.mk (joinLines
        (("#EXTM3U" :: items.flatMap fun it => [extinfLineOf it, it.url]).map String.data))).data =
      ("#EXTM3U" :: items.flatMap fun it => [extinfLineOf it, it.url]).map String.data := by
    apply splitP_joinLines
    · simp
    · intro l hl c hc
      rcases List.mem_map.mp hl with ⟨s, hs, rfl⟩
      exact writer_lines_no_nl items hwf s hs c hc
  simp only [hsplit]
  have hlast : (("#EXTM3U" :: items.flatMap fun it => [extinfLineOf it, it.url]).map
      String.data).getLast? ≠ some [] := by
    rw [List.getLast?_map]
    cases items with
    | nil =>
      intro h
      simp at h
    | cons it0 rest0 =>
      rcases flat_last (it0 :: rest0) (by simp) with ⟨it2, hit2, hl2⟩
      have hshow : ("#EXTM3U" ::
          (it0 :: rest0).flatMap fun it => [extinfLineOf it, it.url]).getLast? =
          some it2.url := by
        have hsplitapp : ("#EXTM3U" ::
            (it0 :: rest0).flatMap fun it => [extinfLineOf it, it.url]) =
            ["#EXTM3U"] ++ (it0 :: rest0).flatMap fun it => [extinfLineOf it, it.url] := rfl
        rw [hsplitapp, List.getLast?_append, hl2]
        rfl
      rw [hshow]
      obtain ⟨_, _, hne, _, _, _, _⟩ := hwf it2 hit2
      intro hcontra
      simp only [Option.map_some', Option.some.injEq] at hcontra
      exact hne (String.ext hcontra)
  rw [if_neg hlast, List.map_map]
  have hid : (String.mk ∘ String.data) = id := funext (fun s => rfl)
  rw [hid, List.map_id]

instance wfValueDecidable (s : String) : Decidable (wfValue s) := by
  unfold wfValue
  infer_instance

instance wfItemDecidable (it : Item) : Decidable (wfItem it) := by
  unfold wfItem
  infer_instance

lemma stripList_nil_all_ws (l : List Char) (h : stripList l = []) :
    ∀ c ∈ l, isPyWs c = true := by
  rw [stripList, List.reverse_eq_nil_iff, List.dropWhile_eq_nil_iff] at h
  have hdrop : ∀ c ∈ (l.dropWhile isPyWs), isPyWs c = true := by
    intro c hc
    exact h c (List.mem_reverse.mpr hc)
  intro c hc
  rw [← List.takeWhile_append_dropWhile isPyWs l] at hc
  rcases List.mem_append.mp hc with h1 | h1
  · exact List.mem_takeWhile_imp h1
  · exact hdrop c h1

lemma pyStrip_ne_of_head (s : String) (c : Char) (t : List Char)
    (hd : s.data = c :: t) (hc : isPyWs c = false) : pyStrip s ≠ "" := by
  intro h
  have hdata : stripList s.data = [] := congrArg String.data h
  have := stripList_nil_all_ws s.data hdata c (by rw [hd]; exact List.mem_cons_self ..)
  rw [hc] at this
  cases this

/-- All writer lines survive the blank filter. -/
lemma filteredLines_writer (items : List Item) (hwf : ∀ it ∈ items, wfItem it) :
    filteredLines (write_m3u items) =
      "#EXTM3U" :: items.flatMap (fun it => [extinfLineOf it, it.url]) := by
  rw [filteredLines, pySplitLines_writer items hwf]
  apply List.filter_eq_self.mpr
  intro l hl
  rcases List.mem_cons.mp hl with rfl | hl
  · decide
  · rcases List.mem_flatMap.mp hl with ⟨it, hit, hmem⟩
    obtain ⟨_, hstrip, hne, _, _, _, _⟩ := hwf it hit
    simp only [List.mem_cons, List.not_mem_nil, or_false] at hmem
    rcases hmem with rfl | rfl
    · exact bne_iff_ne.mpr (pyStrip_ne_of_head _ _ _ (extinfLineOf_data it) (by decide))
    · rw [hstrip]
      exact bne_iff_ne.mpr hne

/-- Claim C1 as amended.  For entries whose URL is non-empty, stripped, no
    comment line and line-break-free, whose display name is stripped and
    line-break-free, and whose kept attribute values hold no quote, comma
    or line break, writing the playlist and re-tokenizing the text yields
    the same sequence — hence the same set — of (tvg-id, display name, URL)
    triples.  (Attributes outside the kept set are lost, as documented.) -/
theorem write_tokenize_roundtrip (items : List Item)
    (hwf : ∀ it ∈ items, wfItem it) :
    (tokenize_m3u (write_m3u items)).map tripleOf = items.map tripleOf := by
  rw [tokenize_m3u, filteredLines_writer items hwf,
    tokenizeLoop_cons_skip _ _ (by decide), tokenizeLoop_writer items hwf,
    List.map_map]
  exact List.map_congr_left (fun it hit => tripleOf_reparse it (hwf it hit))

/-- Witness for the amended C1 at a concrete entry (with one attribute
    outside the kept set, which is lost without affecting the triple). -/
theorem write_tokenize_roundtrip_witness :
    (∀ it ∈ ([⟨[("tvg-id", "a.us"), ("x-extra", "z")], "Chan",
        "http://u/v.m3u8"⟩] : List Item), wfItem it) ∧
      (tokenize_m3u (write_m3u [⟨[("tvg-id", "a.us"), ("x-extra", "z")], "Chan",
          "http://u/v.m3u8"⟩])).map tripleOf =
        ([⟨[("tvg-id", "a.us"), ("x-extra", "z")], "Chan",
          "http://u/v.m3u8"⟩] : List Item).map tripleOf :=
  ⟨by decide, write_tokenize_roundtrip _ (by decide)⟩

/-- Counterexample to C1 as stated: an entry with an empty URL writes an
    empty line, which re-tokenization discards; the URL scan of the first
    entry then swallows the next EXTINF line and takes its URL, so the
    second entry's triple disappears from the result. -/
theorem roundtrip_counterexample :
    (("", "b", "http://x") ∈
        ([⟨[], "a", ""⟩, ⟨[], "b", "http://x"⟩] : List Item).map tripleOf) ∧
      (("", "b", "http://x") ∉
        (tokenize_m3u (write_m3u
          [⟨[], "a", ""⟩, ⟨[], "b", "http://x"⟩])).map tripleOf) := by
  constructor
  · decide
  · have hf : filteredLines (write_m3u [⟨[], "a", ""⟩, ⟨[], "b", "http://x"⟩]) =
        ["#EXTM3U", "#EXTINF:-1 ,a", "#EXTINF:-1 ,b", "http://x"] := by decide
    rw [tokenize_m3u, hf, tokenizeLoop_cons_skip _ _ (by decide),
      tokenizeLoop_cons_extinf _ _ (by decide)]
    have hdw : List.dropWhile (fun l => pyStartsWith l "#")
        ["#EXTINF:-1 ,b", "http://x"] = ["http://x"] := by decide
    rw [hdw, List.tail_cons, tokenizeLoop_nil]
    have hitem : extinfItem "#EXTINF:-1 ,a" (pyStrip "http://x") = ⟨[], "a", "http://x"⟩ := by
      rw [extinfItem]
      have hp : parseExtinf "#EXTINF:-1 ,a" = some ("", "a") := by decide
      rw [hp]
      show ({ attrs := buildAttrs (findAttrPairs ("" : String).data)
              display := pyStrip (pyStrip "a")
              url := pyStrip "http://x" } : Item) = ⟨[], "a", "http://x"⟩
      have h0 : findAttrPairs ("" : String).data = [] := findAttrPairs_nil
      rw [h0]
      decide
    rw [hitem]
    decide
